import Mathlib

/-!
Verification of the transportation/assignment solver specification against the
repository's code.  The repository ships a React frontend (under
`src/frontend` and the unnamed component files); the solving engine the spec
describes (ProblemNormalizer, the four initial-solution strategies, MODI,
Hungarian) lives in a backend that is not part of `src/`, so those components
are modelled here from the spec's own words, while the frontend pieces
(`api.ts` request/response shapes, `MatrixInput.handleCellChange`,
`TransportationSolver.handleMatrixSizeChange`) are translated directly from
the source.  Quantities are represented by exact rationals, so every
"within tolerance" statement is settled by exact equality.
-/

namespace TPS

/-- Tolerance used by the spec for floating comparisons (§7); in the exact
rational model it only matters as the threshold of MODI's sign test. -/
def eps : ℚ := 1 / 1000000000

/-- View a list as a total vector, reading absent entries as 0. -/
def vec (l : List ℚ) : ℕ → ℚ := fun i => l.getD i 0

/-- View a list of rows as a total matrix, reading absent entries as 0. -/
def mat (rows : List (List ℚ)) : ℕ → ℕ → ℚ := fun i j => (rows.getD i []).getD j 0

/-- Materialize a vector of length `m` back into a list. -/
def toVec (m : ℕ) (f : ℕ → ℚ) : List ℚ := (List.range m).map f

/-- Materialize an `m × n` matrix back into a list of rows. -/
def toMat (m n : ℕ) (f : ℕ → ℕ → ℚ) : List (List ℚ) :=
  (List.range m).map (fun i => (List.range n).map (f i))

/-- Pointwise update of a vector, written with a plain `if` so that the
kernel and `simp` can evaluate it on concrete inputs. -/
def upd (f : ℕ → ℚ) (i : ℕ) (x : ℚ) : ℕ → ℚ := fun k => if k = i then x else f k

/-- Minimum of two rationals, written with a plain `if`. -/
def qmin (a b : ℚ) : ℚ := if a ≤ b then a else b

/-- One entry of the ordered step trace: a cell decision allocating `amount`
at `(row, col)` (spec §3, Step). -/
structure AllocStep where
  row : ℕ
  col : ℕ
  amount : ℚ
deriving DecidableEq

/-- Working state of an initial-solution builder: remaining supply, remaining
demand, allocation built so far, and the step trace. -/
structure BState where
  s : ℕ → ℚ
  d : ℕ → ℚ
  alloc : ℕ → ℕ → ℚ
  steps : List AllocStep

/-- Sum of row `i` of an allocation over columns `0..n-1`. -/
def rowSum (n : ℕ) (alloc : ℕ → ℕ → ℚ) (i : ℕ) : ℚ := ∑ j ∈ Finset.range n, alloc i j

/-- Sum of column `j` of an allocation over rows `0..m-1`. -/
def colSum (m : ℕ) (alloc : ℕ → ℕ → ℚ) (j : ℕ) : ℚ := ∑ i ∈ Finset.range m, alloc i j

/-- Total cost of an allocation: sum over all cells of allocation times cost
(spec §4.5). -/
def totalCost (m n : ℕ) (cost alloc : ℕ → ℕ → ℚ) : ℚ :=
  ∑ i ∈ Finset.range m, ∑ j ∈ Finset.range n, alloc i j * cost i j

/-- Modelled from the spec: the common allocation move of every
InitialSolutionBuilder strategy (the builder code is not under `src/`).
Allocate `min(remaining supply[i], remaining demand[j])` at cell `(i, j)`,
decrement both, and append the decision to the trace (spec §4.2). -/
def allocStep (st : BState) (i j : ℕ) : BState :=
  let x := qmin (st.s i) (st.d j)
  { s := upd st.s i (st.s i - x)
    d := upd st.d j (st.d j - x)
    alloc := fun a b => if a = i ∧ b = j then st.alloc a b + x else st.alloc a b
    steps := st.steps ++ [⟨i, j, x⟩] }

/-- Modelled from the spec: the North-West Corner Rule loop (the builder code
is not under `src/`).  Pointers `i, j` start at `(0,0)`; each step allocates
`min` at `(i,j)`; if supply `i` is exhausted (including the simultaneous
tie) only `i` advances, otherwise `j` advances (spec §4.2 NWCR, including the
tie-break that forces a later zero-valued phantom step). -/
def nwcrGo (m n : ℕ) : ℕ → ℕ → ℕ → BState → BState
  | 0, _, _, st => st
  | fuel + 1, i, j, st =>
    if i < m ∧ j < n then
      let st1 := allocStep st i j
      if st.s i ≤ st.d j then nwcrGo m n fuel (i + 1) j st1
      else nwcrGo m n fuel i (j + 1) st1
    else st

/-- Builder state at the start of a solve: nothing allocated, empty trace. -/
def initState (s d : ℕ → ℚ) : BState := ⟨s, d, fun _ _ => 0, []⟩

/-- North-West Corner Rule on a balanced `m × n` problem.  The pointer sum
`i + j` grows by one per step, so `m + n` steps always suffice. -/
def nwcr (m n : ℕ) (s d : ℕ → ℚ) : BState :=
  nwcrGo m n (m + n) 0 0 (initState s d)

/-- First-wins selection: fold a candidate list, replacing the current best
only when `better` holds strictly, so earlier elements win ties. -/
def chooseBy (better : α → α → Bool) : α → List α → α
  | best, [] => best
  | best, x :: xs => chooseBy better (if better x best then x else best) xs

/-- All cells of an `m × n` grid in row-major order. -/
def cellsRM (m n : ℕ) : List (ℕ × ℕ) :=
  (List.range m).flatMap (fun i => (List.range n).map (fun j => (i, j)))

/-- Cells whose row still has supply and whose column still has demand, in
row-major order. -/
def eligibleList (m n : ℕ) (s d : ℕ → ℚ) : List (ℕ × ℕ) :=
  (cellsRM m n).filter (fun p => decide (0 < s p.1) && decide (0 < d p.2))

/-- Modelled from the spec: the Least Cost Method's cell selection (the
builder code is not under `src/`): globally minimum cost among cells with
non-exhausted row and column, ties broken by lowest row then lowest column
(spec §4.2); first-wins scan of the row-major list realizes the tie-break. -/
def leastCostPick (m n : ℕ) (cost : ℕ → ℕ → ℚ) (s d : ℕ → ℚ) : ℕ × ℕ :=
  match eligibleList m n s d with
  | [] => (0, 0)
  | p :: rest => chooseBy (fun a b => decide (cost a.1 a.2 < cost b.1 b.2)) p rest

/-- Modelled from the spec: the Row Minima selection (the builder code is not
under `src/`): the first row with remaining supply, and within it the
minimum-cost column that still has demand, lowest index first (spec §4.2). -/
def rowMinimaPick (m n : ℕ) (cost : ℕ → ℕ → ℚ) (s d : ℕ → ℚ) : ℕ × ℕ :=
  match (List.range m).filter (fun i => decide (0 < s i)) with
  | [] => (0, 0)
  | i :: _ =>
    match (List.range n).filter (fun j => decide (0 < d j)) with
    | [] => (i, 0)
    | j :: rest => (i, chooseBy (fun a b => decide (cost i a < cost i b)) j rest)

/-- Smallest element of a list of rationals (0 when empty). -/
def minQ : List ℚ → ℚ
  | [] => 0
  | x :: xs => xs.foldl qmin x

/-- Modelled from the spec: a VAM penalty (the builder code is not under
`src/`): the difference of the two smallest costs among the active cells of a
line; a single active cell gives that cost, none gives 0 (spec §4.2 VAM). -/
def penaltyOf (cs : List ℚ) : ℚ :=
  match cs with
  | [] => 0
  | [a] => a
  | _ => minQ (cs.erase (minQ cs)) - minQ cs

/-- Modelled from the spec: Vogel's Approximation Method selection (the
builder code is not under `src/`): compute penalties for every active row and
column, take the line of greatest penalty preferring rows over columns and
lower indices, then the minimum-cost active cell inside that line
(spec §4.2 VAM and the §9 tie-break note). -/
def vamPick (m n : ℕ) (cost : ℕ → ℕ → ℚ) (s d : ℕ → ℚ) : ℕ × ℕ :=
  let activeR := (List.range m).filter (fun i => decide (0 < s i))
  let activeC := (List.range n).filter (fun j => decide (0 < d j))
  let rowPen : ℕ → ℚ := fun i => penaltyOf (activeC.map (fun j => cost i j))
  let colPen : ℕ → ℚ := fun j => penaltyOf (activeR.map (fun i => cost i j))
  let pen : Bool × ℕ → ℚ := fun p => if p.1 then rowPen p.2 else colPen p.2
  match activeR.map (fun i => (true, i)) ++ activeC.map (fun j => (false, j)) with
  | [] => (0, 0)
  | l :: ls =>
    let best := chooseBy (fun a b => decide (pen b < pen a)) l ls
    if best.1 then
      match activeC with
      | [] => (best.2, 0)
      | j :: rest => (best.2, chooseBy (fun a b => decide (cost best.2 a < cost best.2 b)) j rest)
    else
      match activeR with
      | [] => (0, best.2)
      | i :: rest => (chooseBy (fun a b => decide (cost a best.2 < cost b best.2)) i rest, best.2)

/-- Modelled from the spec: the shared loop of the three scan-based builders
(the builder code is not under `src/`): while some supply and some demand
remain positive, let the strategy pick a cell and allocate the minimum of its
remaining supply and demand; termination is "when every supply and demand
value has reached zero" (spec §4.2). -/
def greedyGo (m n : ℕ) (pick : (ℕ → ℚ) → (ℕ → ℚ) → ℕ × ℕ) : ℕ → BState → BState
  | 0, st => st
  | fuel + 1, st =>
    if (∃ i ∈ Finset.range m, 0 < st.s i) ∧ ∃ j ∈ Finset.range n, 0 < st.d j then
      let p := pick st.s st.d
      greedyGo m n pick fuel (allocStep st p.1 p.2)
    else st

/-- Number of rows with remaining supply plus columns with remaining demand;
each builder step drives this strictly down, bounding the loop by `m + n`. -/
def phiCount (m n : ℕ) (st : BState) : ℕ :=
  ((Finset.range m).filter (fun k => 0 < st.s k)).card +
    ((Finset.range n).filter (fun k => 0 < st.d k)).card

/-- A strategy's cell selection is valid when, as long as some supply and
some demand remain, it returns an in-range cell with remaining supply and
demand — the property shared by the three scan-based strategies. -/
def PickValid (m n : ℕ) (pick : (ℕ → ℚ) → (ℕ → ℚ) → ℕ × ℕ) : Prop :=
  ∀ s d : ℕ → ℚ, (∃ i ∈ Finset.range m, 0 < s i) → (∃ j ∈ Finset.range n, 0 < d j) →
    (pick s d).1 < m ∧ (pick s d).2 < n ∧ 0 < s (pick s d).1 ∧ 0 < d (pick s d).2

/-- Keys of the four initial-solution strategies, exactly as in the
`method` union type of `api.ts`. -/
inductive MethodKey where
  | nwcr
  | least_cost
  | vam
  | row_minima
deriving DecidableEq

/-- Display name of a strategy, as listed by the backend's method catalog. -/
def methodName : MethodKey → String
  | .nwcr => "nwcr"
  | .least_cost => "least_cost"
  | .vam => "vam"
  | .row_minima => "row_minima"

/-- Modelled from the spec: the InitialSolutionBuilder dispatch (the builder
code is not under `src/`): the four strategies are interchangeable variants
selected by an enumerated key (spec §4.2, §9).  Every step removes at least
one positive supply or demand entry (or advances a NWCR pointer), so `m + n`
iterations always suffice. -/
def buildInitial (method : MethodKey) (m n : ℕ) (cost : ℕ → ℕ → ℚ) (s d : ℕ → ℚ) : BState :=
  match method with
  | .nwcr => nwcr m n s d
  | .least_cost => greedyGo m n (leastCostPick m n cost) (m + n) (initState s d)
  | .vam => greedyGo m n (vamPick m n cost) (m + n) (initState s d)
  | .row_minima => greedyGo m n (rowMinimaPick m n cost) (m + n) (initState s d)

/-- Record of the synthetic row or column added while balancing
(`dummy_added = {side, amount}`, spec §3). -/
structure DummyInfo where
  side : String
  amount : ℚ
deriving DecidableEq

/-- A balanced problem as produced by the normalizer, together with the
`dummy_added` metadata (spec §4.1). -/
structure BalancedProblem where
  costs : List (List ℚ)
  supply : List ℚ
  demand : List ℚ
  dummy_added : Option DummyInfo
deriving DecidableEq

/-- Modelled from the spec: ProblemNormalizer's balancing step (the
normalizer code is not under `src/`).  If total supply exceeds total demand,
append one demand column of the excess with cost 0 in every row; if total
demand exceeds, append one supply row; otherwise no change (spec §4.1). -/
def normalizeT (costs : List (List ℚ)) (supply demand : List ℚ) : BalancedProblem :=
  let ts := supply.sum
  let td := demand.sum
  if td < ts then
    ⟨costs.map (fun r => r ++ [0]), supply, demand ++ [ts - td], some ⟨"demand", ts - td⟩⟩
  else if ts < td then
    ⟨costs ++ [List.replicate demand.length 0], supply ++ [td - ts], demand, some ⟨"supply", td - ts⟩⟩
  else ⟨costs, supply, demand, none⟩

/-- The `TransportationProblem` request shape, translated from the interface
in `src/frontend/src/services/api.ts` (lines 14–21): `method` ranges over the
union of exactly the four strategy keys, `use_modi` and `max_iterations` are
optional. -/
structure TransportationProblem where
  costs : List (List ℚ)
  supply : List ℚ
  demand : List ℚ
  method : MethodKey
  use_modi : Option Bool
  max_iterations : Option Int

/-- The `ValidationResponse` shape, translated from
`src/frontend/src/services/api.ts` (lines 41–48): `valid` is required,
everything else optional. -/
structure ValidationResponse where
  valid : Bool
  total_supply : Option ℚ
  total_demand : Option ℚ
  balanced : Option Bool
  matrix_size : Option (List ℕ)
  error : Option String

/-- Modelled from the spec: the transportation validator (the backend route
is not under `src/`).  It rejects `m < 1` or `n < 1`, a ragged cost matrix,
supply/demand length mismatches and negative values (spec §4.1); on success
it reports totals, balancedness and the matrix size (spec §6
ValidationResponse). -/
def validateT (p : TransportationProblem) : ValidationResponse :=
  let m := p.costs.length
  let n := (p.costs.headD []).length
  if m < 1 ∨ n < 1 then
    ⟨false, none, none, none, none, some "Matrix must have at least one row and column"⟩
  else if ¬ p.costs.all (fun r => decide (r.length = n)) then
    ⟨false, none, none, none, none, some "Cost matrix rows must have equal length"⟩
  else if p.supply.length ≠ m ∨ p.demand.length ≠ n then
    ⟨false, none, none, none, none, some "Supply/demand length mismatch"⟩
  else if p.costs.any (fun r => r.any (fun c => decide (c < 0))) ∨
      p.supply.any (fun x => decide (x < 0)) ∨ p.demand.any (fun x => decide (x < 0)) then
    ⟨false, none, none, none, none, some "Values must be non-negative"⟩
  else
    ⟨true, some p.supply.sum, some p.demand.sum, some (decide (p.supply.sum = p.demand.sum)),
      some [m, n], none⟩

/-- The `SolutionResponse` shape, translated from
`src/frontend/src/services/api.ts` (lines 27–39): allocation or assignment,
total cost, steps, echoed data, and the optional `dummy_added`, `converged`
and `iterations` fields. -/
structure SolutionResponse where
  method : String
  allocation : Option (List (List ℚ))
  assignment : Option (List (ℕ × ℕ))
  total_cost : ℚ
  steps : List AllocStep
  costs : List (List ℚ)
  supply : Option (List ℚ)
  demand : Option (List ℚ)
  dummy_added : Option DummyInfo
  converged : Option Bool
  iterations : Option ℕ

/-- Cells currently carrying a strictly positive allocation, row-major. -/
def basicCells (m n : ℕ) (alloc : ℕ → ℕ → ℚ) : List (ℕ × ℕ) :=
  (cellsRM m n).filter (fun p => decide (0 < alloc p.1 p.2))

/-- Neighbours of a node of the basic-cell graph (rows are `(true, i)`,
columns `(false, j)`, one edge per basic cell; spec §4.3, §9). -/
def nbrs (B : List (ℕ × ℕ)) (v : Bool × ℕ) : List (Bool × ℕ) :=
  if v.1 then (B.filter (fun c => decide (c.1 = v.2))).map (fun c => (false, c.2))
  else (B.filter (fun c => decide (c.2 = v.2))).map (fun c => (true, c.1))

/-- Fueled breadth-first reachability over the basic-cell graph. -/
def reachGo (B : List (ℕ × ℕ)) : ℕ → List (Bool × ℕ) → List (Bool × ℕ) → List (Bool × ℕ)
  | 0, visited, _ => visited
  | fuel + 1, visited, frontier =>
    match frontier with
    | [] => visited
    | v :: rest =>
      let new := (nbrs B v).filter (fun w => decide (w ∉ visited))
      reachGo B fuel (visited ++ new) (rest ++ new)

/-- Whether two nodes are connected in the basic-cell graph. -/
def connected (B : List (ℕ × ℕ)) (u v : Bool × ℕ) : Bool :=
  decide (v ∈ reachGo B (2 * B.length + 2) [u] [u])

/-- Modelled from the spec: MODI's degeneracy repair (the optimizer code is
not under `src/`): scan cells row-major, skipping cells already basic or
closing a cycle, and inject zero-valued basic cells until `m + n - 1` is
reached (spec §4.3 precondition check). -/
def injectGo : List (ℕ × ℕ) → List (ℕ × ℕ) → ℕ → List (ℕ × ℕ)
  | _, B, 0 => B
  | [], B, _ => B
  | c :: rest, B, need + 1 =>
    if c ∈ B ∨ connected B (true, c.1) (false, c.2) = true then injectGo rest B (need + 1)
    else injectGo rest (B ++ [c]) need

/-- One pass of dual-variable propagation along basic cells:
`u_i + v_j = cost_ij` on every basic cell (spec §4.3 step 1). -/
def propagate (cost : ℕ → ℕ → ℚ) (B : List (ℕ × ℕ))
    (uv : (ℕ → Option ℚ) × (ℕ → Option ℚ)) : (ℕ → Option ℚ) × (ℕ → Option ℚ) :=
  B.foldl (fun uv c =>
    match uv.1 c.1, uv.2 c.2 with
    | some ui, none => (uv.1, fun k => if k = c.2 then some (cost c.1 c.2 - ui) else uv.2 k)
    | none, some vj => (fun k => if k = c.1 then some (cost c.1 c.2 - vj) else uv.1 k, uv.2)
    | _, _ => uv) uv

/-- Dual variables from the anchor `u_0 = 0`, propagated along the spanning
tree of basic cells (spec §4.3 step 1). -/
def duals (m n : ℕ) (cost : ℕ → ℕ → ℚ) (B : List (ℕ × ℕ)) :
    (ℕ → Option ℚ) × (ℕ → Option ℚ) :=
  (propagate cost B)^[m + n] ((fun k => if k = 0 then some 0 else none), fun _ => none)

/-- Modelled from the spec: the entering-cell search (the optimizer code is
not under `src/`): the non-basic cell with the most negative opportunity cost
`cost_ij - u_i - v_j < -ε`, ties broken by lowest row then lowest column via
the first-wins row-major scan (spec §4.3 steps 2–4). -/
def entering (m n : ℕ) (cost : ℕ → ℕ → ℚ) (B : List (ℕ × ℕ)) (u v : ℕ → Option ℚ) :
    Option (ℕ × ℕ × ℚ) :=
  (cellsRM m n).foldl (fun best c =>
    if c ∈ B then best
    else
      match u c.1, v c.2 with
      | some ui, some vj =>
        let dij := cost c.1 c.2 - ui - vj
        if dij < -eps then
          match best with
          | none => some (c.1, c.2, dij)
          | some b => if dij < b.2.2 then some (c.1, c.2, dij) else best
        else best
      | _, _ => best) none

/-- Drop every cell whose row or column appears fewer than twice; iterating
this removes the tree branches and leaves the closed loop. -/
def pruneOnce (cells : List (ℕ × ℕ)) : List (ℕ × ℕ) :=
  cells.filter (fun c =>
    decide (2 ≤ (cells.filter (fun e => decide (e.1 = c.1))).length) &&
    decide (2 ≤ (cells.filter (fun e => decide (e.2 = c.2))).length))

/-- The unique closed loop formed by the entering cell and the basic cells
(spec §4.3 step 5). -/
def findLoop (m n : ℕ) (B : List (ℕ × ℕ)) (e : ℕ × ℕ) : List (ℕ × ℕ) :=
  pruneOnce^[m + n] (e :: B)

/-- Walk the loop cells in cycle order, alternating row and column moves. -/
def orderLoopGo (cyc : List (ℕ × ℕ)) : ℕ → ℕ × ℕ → Bool → List (ℕ × ℕ) → List (ℕ × ℕ)
  | 0, _, _, acc => acc.reverse
  | fuel + 1, cur, useRow, acc =>
    match cyc.find? (fun c => decide (c ≠ cur) && decide (c ∉ acc) &&
        (if useRow then decide (c.1 = cur.1) else decide (c.2 = cur.2))) with
    | some nxt => orderLoopGo cyc fuel nxt (!useRow) (nxt :: acc)
    | none => acc.reverse

/-- The loop in traversal order starting at the entering cell, which carries
the `+` sign; signs then alternate (spec §4.3 step 5). -/
def orderLoop (cyc : List (ℕ × ℕ)) (e : ℕ × ℕ) : List (ℕ × ℕ) :=
  orderLoopGo cyc cyc.length e true [e]

/-- The minus-signed cells: every second cell of the ordered loop. -/
def oddCells : List (ℕ × ℕ) → List (ℕ × ℕ)
  | [] => []
  | [_] => []
  | _ :: b :: rest => b :: oddCells rest

/-- Lexicographic cell order: lowest row, then lowest column. -/
def cellLexLt (a b : ℕ × ℕ) : Bool :=
  decide (a.1 < b.1) || (decide (a.1 = b.1) && decide (a.2 < b.2))

/-- Modelled from the spec: the leaving-cell rule (the optimizer code is not
under `src/`): the minus-signed cell of smallest current allocation, ties
broken by lowest row then column (spec §4.3 step 5). -/
def leavingPick (alloc : ℕ → ℕ → ℚ) (c : ℕ × ℕ) (rest : List (ℕ × ℕ)) : ℕ × ℕ :=
  chooseBy (fun a b => decide (alloc a.1 a.2 < alloc b.1 b.2) ||
    (decide (alloc a.1 a.2 = alloc b.1 b.2) && cellLexLt a b)) c rest

/-- Shift `θ` along the ordered loop: `+θ` on plus cells, `-θ` on minus
cells (spec §4.3 step 6). -/
def applyLoop (t : ℚ) : List (ℕ × ℕ) → Bool → (ℕ → ℕ → ℚ) → ℕ → ℕ → ℚ
  | [], _, alloc => alloc
  | c :: rest, plus, alloc =>
    applyLoop t rest (!plus)
      (fun a b => if a = c.1 ∧ b = c.2 then (if plus then alloc a b + t else alloc a b - t)
        else alloc a b)

/-- Result of the MODI optimizer: final allocation, convergence flag,
iteration count and improvement trace. -/
structure ModiResult where
  alloc : ℕ → ℕ → ℚ
  converged : Bool
  iterations : ℕ
  steps : List AllocStep

/-- Modelled from the spec: the MODI iteration (the optimizer code is not
under `src/`).  Each round computes duals, looks for an entering cell, traces
the loop and shifts by the leaving cell's value; no entering cell means
`converged = true`; running out of `max_iterations` (and the fatal
no-leaving-cell condition) reports `converged = false` with the best
allocation found — never a thrown failure (spec §4.3, §7). -/
def modiIter (m n : ℕ) (cost : ℕ → ℕ → ℚ) :
    ℕ → (ℕ → ℕ → ℚ) → List (ℕ × ℕ) → List AllocStep → ℕ → ModiResult
  | 0, alloc, _, steps, iters => ⟨alloc, false, iters, steps⟩
  | fuel + 1, alloc, B, steps, iters =>
    let uv := duals m n cost B
    match entering m n cost B uv.1 uv.2 with
    | none => ⟨alloc, true, iters, steps⟩
    | some e =>
      let cyc := findLoop m n B (e.1, e.2.1)
      let ordered := orderLoop cyc (e.1, e.2.1)
      match oddCells ordered with
      | [] => ⟨alloc, false, iters, steps⟩
      | c :: rest =>
        let leaving := leavingPick alloc c rest
        let t := alloc leaving.1 leaving.2
        modiIter m n cost fuel (applyLoop t ordered true alloc)
          (((e.1, e.2.1) :: B).erase leaving) (steps ++ [⟨e.1, e.2.1, t⟩]) (iters + 1)

/-- Modelled from the spec: the SteppingStoneOptimizer entry point (the
optimizer code is not under `src/`): repair degeneracy up to `m + n - 1`
basic cells, then iterate up to `max_iterations` times (spec §4.3). -/
def modi (m n : ℕ) (cost alloc : ℕ → ℕ → ℚ) (maxIter : ℕ) : ModiResult :=
  let B0 := basicCells m n alloc
  let B := injectGo (cellsRM m n) B0 (m + n - 1 - B0.length)
  modiIter m n cost maxIter alloc B [] 0

/-- The `max_iterations` a solve actually uses: the request's value, or the
default 10 when the optional field is omitted (spec §6). -/
def effectiveMaxIterations (p : TransportationProblem) : Int :=
  p.max_iterations.getD 10

/-- Modelled from the spec: the transportation solve pipeline (the backend
route is not under `src/`): validate, balance, build the initial solution
with the selected strategy, optionally run MODI, and assemble the response;
`converged`/`iterations` are set exactly when MODI ran (spec §2, §6). -/
def solveTransportation (p : TransportationProblem) : Except String SolutionResponse :=
  let v := validateT p
  if v.valid then
    let b := normalizeT p.costs p.supply p.demand
    let m := b.supply.length
    let n := b.demand.length
    let st := buildInitial p.method m n (mat b.costs) (vec b.supply) (vec b.demand)
    if p.use_modi = some true then
      let r := modi m n (mat b.costs) st.alloc (effectiveMaxIterations p).toNat
      .ok ⟨methodName p.method, some (toMat m n r.alloc), none,
        totalCost m n (mat b.costs) r.alloc, st.steps ++ r.steps, b.costs,
        some b.supply, some b.demand, b.dummy_added, some r.converged, some r.iterations⟩
    else
      .ok ⟨methodName p.method, some (toMat m n st.alloc), none,
        totalCost m n (mat b.costs) st.alloc, st.steps, b.costs,
        some b.supply, some b.demand, b.dummy_added, none, none⟩
  else .error (v.error.getD "Invalid input")

/-- Subtract each row's minimum from that row (spec §4.4 step 1). -/
def rowReduce (n : ℕ) (C : ℕ → ℕ → ℚ) : ℕ → ℕ → ℚ :=
  fun i j => C i j - minQ ((List.range n).map (fun k => C i k))

/-- Subtract each column's minimum from that column (spec §4.4 step 2). -/
def colReduce (n : ℕ) (C : ℕ → ℕ → ℚ) : ℕ → ℕ → ℚ :=
  fun i j => C i j - minQ ((List.range n).map (fun k => C k j))

/-- Inner loop of the augmenting-path search: try the columns of row `r` in
ascending order over zero-cost edges (spec §4.4 step 3, deterministic
order).  `tryRow` reroutes the row currently matched to a column. -/
def kuhnCols (zero : ℕ → ℕ → Bool) (r : ℕ)
    (tryRow : ℕ → (ℕ → Option ℕ) → (ℕ → Bool) → Option (ℕ → Option ℕ) × (ℕ → Bool)) :
    List ℕ → (ℕ → Option ℕ) → (ℕ → Bool) → Option (ℕ → Option ℕ) × (ℕ → Bool)
  | [], _, vis => (none, vis)
  | j :: rest, mc, vis =>
    if zero r j && !vis j then
      let vis1 : ℕ → Bool := fun k => if k = j then true else vis k
      match mc j with
      | none => (some (fun k => if k = j then some r else mc k), vis1)
      | some r2 =>
        match tryRow r2 mc vis1 with
        | (some mc2, vis2) => (some (fun k => if k = j then some r else mc2 k), vis2)
        | (none, vis2) => kuhnCols zero r tryRow rest mc vis2
    else kuhnCols zero r tryRow rest mc vis

/-- Fueled augmenting-path search from a row (depth at most `n`). -/
def kuhnTry (zero : ℕ → ℕ → Bool) (n : ℕ) :
    ℕ → ℕ → (ℕ → Option ℕ) → (ℕ → Bool) → Option (ℕ → Option ℕ) × (ℕ → Bool)
  | 0, _, _, vis => (none, vis)
  | fuel + 1, r, mc, vis => kuhnCols zero r (kuhnTry zero n fuel) (List.range n) mc vis

/-- Maximum matching over zero-cost edges, rows attempted in ascending
order; the map sends each column to its matched row. -/
def maxMatching (zero : ℕ → ℕ → Bool) (n : ℕ) : ℕ → Option ℕ :=
  (List.range n).foldl (fun mc r =>
    match (kuhnTry zero n (n + 1) r mc (fun _ => false)).1 with
    | some mc2 => mc2
    | none => mc) (fun _ => none)

/-- Number of matched columns. -/
def matchSize (n : ℕ) (mc : ℕ → Option ℕ) : ℕ :=
  ((List.range n).filter (fun j => (mc j).isSome)).length

/-- Alternating reachability from unmatched rows, used to build the minimum
line cover (König construction) for the adjustment step. -/
def koenigReach (n : ℕ) (zero : ℕ → ℕ → Bool) (mc : ℕ → Option ℕ) :
    ℕ → List ℕ → List ℕ → List ℕ × List ℕ
  | 0, rows, cols => (rows, cols)
  | fuel + 1, rows, cols =>
    let newCols := (List.range n).filter (fun j => decide (j ∉ cols) && rows.any (fun r => zero r j))
    let cols2 := cols ++ newCols
    let newRows := (List.range n).filter (fun r => decide (r ∉ rows) && cols2.any (fun j => mc j == some r))
    if newCols.isEmpty && newRows.isEmpty then (rows, cols)
    else koenigReach n zero mc fuel (rows ++ newRows) cols2

/-- Modelled from the spec: the cover-and-adjust step (the solver code is
not under `src/`): find the minimum uncovered value, subtract it from every
uncovered row, add it to every doubly-covered cell (spec §4.4 step 4,
followed literally). -/
def hungarianAdjust (n : ℕ) (C : ℕ → ℕ → ℚ) (mc : ℕ → Option ℕ) : ℕ → ℕ → ℚ :=
  let matchedRow : ℕ → Bool := fun r => (List.range n).any (fun j => mc j == some r)
  let z0 := (List.range n).filter (fun r => !matchedRow r)
  let rc := koenigReach n (fun i j => decide (C i j = 0)) mc (2 * n + 2) z0 []
  let rowCovered : ℕ → Bool := fun i => decide (i ∉ rc.1)
  let colCovered : ℕ → Bool := fun j => decide (j ∈ rc.2)
  let uncovered := (cellsRM n n).filter (fun c => !rowCovered c.1 && !colCovered c.2)
  let delta := minQ (uncovered.map (fun c => C c.1 c.2))
  fun i j => (if rowCovered i then C i j else C i j - delta) +
    (if rowCovered i && colCovered j then delta else 0)

/-- Modelled from the spec: the Hungarian cover loop (the solver code is not
under `src/`): if the minimum line cover has size `n` extract the zero-only
perfect matching, otherwise adjust and repeat (spec §4.4 steps 3–4); by
König's theorem the cover size equals the maximum matching size. -/
def hungarianLoop (n : ℕ) : ℕ → (ℕ → ℕ → ℚ) → Option (ℕ → Option ℕ)
  | 0, _ => none
  | fuel + 1, C =>
    let mc := maxMatching (fun i j => decide (C i j = 0)) n
    if matchSize n mc = n then some mc
    else hungarianLoop n fuel (hungarianAdjust n C mc)

/-- One `(row, col)` pair per row, read off the column-to-row matching. -/
def hungarianPairs (n : ℕ) (mc : ℕ → Option ℕ) : List (ℕ × ℕ) :=
  (List.range n).map (fun r => (r, ((List.range n).find? (fun j => mc j == some r)).getD 0))

/-- Modelled from the spec: the AssignmentSolver (the solver code is not
under `src/`): row reduction, column reduction, then the cover loop
(spec §4.4). -/
def hungarian (n : ℕ) (cost : ℕ → ℕ → ℚ) : Option (List (ℕ × ℕ)) :=
  match hungarianLoop n (n * n + 1) (colReduce n (rowReduce n cost)) with
  | some mc => some (hungarianPairs n mc)
  | none => none

/-- Total assignment cost: sum of the original costs at the chosen pairs
(spec §4.4 step 5). -/
def assignTotal (cost : ℕ → ℕ → ℚ) (pairs : List (ℕ × ℕ)) : ℚ :=
  (pairs.map (fun p => cost p.1 p.2)).sum

/-- Modelled from the spec: the assignment solve (the backend route is not
under `src/`): reject a non-square matrix or negative costs, then run the
Hungarian algorithm and assemble the response (spec §4.4, §6). -/
def solveAssignment (costs : List (List ℚ)) : Except String SolutionResponse :=
  let n := costs.length
  if n < 1 ∨ ¬ costs.all (fun r => decide (r.length = n)) then
    .error "Cost matrix must be square"
  else if costs.any (fun r => r.any (fun c => decide (c < 0))) then
    .error "Values must be non-negative"
  else
    match hungarian n (mat costs) with
    | some pairs =>
      .ok ⟨"hungarian", none, some pairs, assignTotal (mat costs) pairs, [], costs,
        none, none, none, none, none⟩
    | none => .error "Internal error"

/-- The assignment pairs of a solve result, if it succeeded. -/
def assignmentOf : Except String SolutionResponse → Option (List (ℕ × ℕ))
  | .ok r => r.assignment
  | .error _ => none

/-- The total cost of a solve result, if it succeeded. -/
def totalCostOf : Except String SolutionResponse → Option ℚ
  | .ok r => some r.total_cost
  | .error _ => none

/-- Indexed map over a list, the direct translation of JavaScript's
`array.map((x, i) => ...)` starting the index at `k`. -/
def mapWithIndex (f : ℕ → α → β) : ℕ → List α → List β
  | _, [] => []
  | k, a :: as => f k a :: mapWithIndex f (k + 1) as

/-- JavaScript's `parseFloat(value) || 0` on an already-parsed value: the
parse result is abstracted as `Option ℚ` (`none` for NaN), and `|| 0` maps
the falsy results NaN and 0 to 0 (`MatrixInput`, unnamed component,
line 13). -/
def jsOrZero (pv : Option ℚ) : ℚ :=
  match pv with
  | none => 0
  | some q => if q = 0 then 0 else q

/-- `MatrixInput.handleCellChange` (unnamed component, lines 11–16):
`matrix.map((r, i) => i === row ? r.map((c, j) => j === col ?
parseFloat(value) || 0 : c) : r)`. -/
def handleCellChange (matrix : List (List ℚ)) (row col : ℕ) (pv : Option ℚ) :
    List (List ℚ) :=
  mapWithIndex (fun i r =>
    if i = row then mapWithIndex (fun j c => if j = col then jsOrZero pv else c) 0 r
    else r) 0 matrix

/-- `TransportationSolver.handleMatrixSizeChange` (unnamed component, lines
64–75): reset costs to a `rows × cols` matrix of ones, supply to `rows`
entries of 100, demand to `cols` entries of 100, keeping the other request
fields. -/
def handleMatrixSizeChange (prev : TransportationProblem) (rows cols : ℕ) :
    TransportationProblem :=
  { prev with
    costs := List.replicate rows (List.replicate cols 1)
    supply := List.replicate rows 100
    demand := List.replicate cols 100 }

/-- The body sent by `apiService.optimizeWithModi`
(`src/frontend/src/services/api.ts`, lines 100–111). -/
structure ModiRequest where
  allocation : List (List ℚ)
  costs : List (List ℚ)
  max_iterations : Int

/-- `apiService.optimizeWithModi` builds its request body with the default
parameter `maxIterations: number = 10` (`api.ts` line 103); an omitted
argument is modelled as `none`. -/
def optimizeWithModiBody (allocation costs : List (List ℚ))
    (maxIterations : Option Int) : ModiRequest :=
  ⟨allocation, costs, maxIterations.getD 10⟩

/-! ### Helper lemmas -/

theorem qmin_eq_min (a b : ℚ) : qmin a b = min a b := (min_def a b).symm

theorem upd_self (f : ℕ → ℚ) (i : ℕ) (x : ℚ) : upd f i x i = x := by
  simp [upd]

theorem upd_ne (f : ℕ → ℚ) (i : ℕ) (x : ℚ) {k : ℕ} (h : k ≠ i) : upd f i x k = f k := by
  simp [upd, h]

theorem sum_upd (f : ℕ → ℚ) (N i : ℕ) (hi : i < N) (x : ℚ) :
    ∑ k ∈ Finset.range N, upd f i x k = (∑ k ∈ Finset.range N, f k) - f i + x := by
  have h1 : ∀ k ∈ Finset.range N, upd f i x k = f k + (if k = i then x - f i else 0) := by
    intro k _
    by_cases hk : k = i
    · subst hk; simp [upd]
    · simp [upd, hk]
  rw [Finset.sum_congr rfl h1, Finset.sum_add_distrib,
    Finset.sum_ite_eq' (Finset.range N) i (fun _ => x - f i)]
  simp [Finset.mem_range.mpr hi]
  ring

theorem rowSum_allocStep (n : ℕ) (st : BState) (i j : ℕ) (hj : j < n) (k : ℕ) :
    rowSum n (allocStep st i j).alloc k
      = rowSum n st.alloc k + (if k = i then qmin (st.s i) (st.d j) else 0) := by
  unfold rowSum allocStep
  simp only
  have h1 : ∀ b ∈ Finset.range n,
      (if k = i ∧ b = j then st.alloc k b + qmin (st.s i) (st.d j) else st.alloc k b)
        = st.alloc k b + (if k = i ∧ b = j then qmin (st.s i) (st.d j) else 0) := by
    intro b _
    by_cases hb : k = i ∧ b = j <;> simp [hb]
  rw [Finset.sum_congr rfl h1, Finset.sum_add_distrib]
  congr 1
  by_cases hk : k = i
  · simp only [hk, true_and]
    rw [Finset.sum_ite_eq' (Finset.range n) j (fun _ => qmin (st.s i) (st.d j))]
    simp [Finset.mem_range.mpr hj]
  · simp [hk]

theorem colSum_allocStep (m : ℕ) (st : BState) (i j : ℕ) (hi : i < m) (k : ℕ) :
    colSum m (allocStep st i j).alloc k
      = colSum m st.alloc k + (if k = j then qmin (st.s i) (st.d j) else 0) := by
  unfold colSum allocStep
  simp only
  have h1 : ∀ a ∈ Finset.range m,
      (if a = i ∧ k = j then st.alloc a k + qmin (st.s i) (st.d j) else st.alloc a k)
        = st.alloc a k + (if a = i ∧ k = j then qmin (st.s i) (st.d j) else 0) := by
    intro a _
    by_cases hb : a = i ∧ k = j <;> simp [hb]
  rw [Finset.sum_congr rfl h1, Finset.sum_add_distrib]
  congr 1
  by_cases hk : k = j
  · simp only [hk, and_true]
    rw [Finset.sum_ite_eq' (Finset.range m) i (fun _ => qmin (st.s i) (st.d j))]
    simp [Finset.mem_range.mpr hi]
  · simp [hk]

theorem allocStep_conserve_row (n : ℕ) (st : BState) (i j : ℕ) (hj : j < n) (k : ℕ) :
    rowSum n (allocStep st i j).alloc k + (allocStep st i j).s k
      = rowSum n st.alloc k + st.s k := by
  rw [rowSum_allocStep n st i j hj k]
  show _ + upd st.s i (st.s i - qmin (st.s i) (st.d j)) k = _
  by_cases hk : k = i
  · subst hk
    rw [upd_self]
    simp only [if_pos rfl, if_true]
    ring
  · rw [upd_ne _ _ _ hk]
    simp [hk]

theorem allocStep_conserve_col (m : ℕ) (st : BState) (i j : ℕ) (hi : i < m) (k : ℕ) :
    colSum m (allocStep st i j).alloc k + (allocStep st i j).d k
      = colSum m st.alloc k + st.d k := by
  rw [colSum_allocStep m st i j hi k]
  show _ + upd st.d j (st.d j - qmin (st.s i) (st.d j)) k = _
  by_cases hk : k = j
  · subst hk
    rw [upd_self]
    simp only [if_pos rfl, if_true]
    ring
  · rw [upd_ne _ _ _ hk]
    simp [hk]

theorem exhausted_of_edge (m n i j : ℕ) (st : BState) (_ : i ≤ m) (_ : j ≤ n)
    (hpi : ∀ k, k < i → st.s k = 0) (hpj : ∀ k, k < j → st.d k = 0)
    (hns : ∀ k, k < m → 0 ≤ st.s k) (hnd : ∀ k, k < n → 0 ≤ st.d k)
    (hbal : ∑ k ∈ Finset.range m, st.s k = ∑ k ∈ Finset.range n, st.d k)
    (hedge : i = m ∨ j = n) :
    (∀ k, k < m → st.s k = 0) ∧ ∀ k, k < n → st.d k = 0 := by
  rcases hedge with hedge | hedge
  · have hsz : ∀ k, k < m → st.s k = 0 := fun k hk => hpi k (hedge ▸ hk)
    have hsum : ∑ k ∈ Finset.range m, st.s k = 0 :=
      Finset.sum_eq_zero (fun k hk => hsz k (Finset.mem_range.mp hk))
    have hdz := (Finset.sum_eq_zero_iff_of_nonneg
      (fun k hk => hnd k (Finset.mem_range.mp hk))).mp (hbal ▸ hsum)
    exact ⟨hsz, fun k hk => hdz k (Finset.mem_range.mpr hk)⟩
  · have hdz : ∀ k, k < n → st.d k = 0 := fun k hk => hpj k (hedge ▸ hk)
    have hsum : ∑ k ∈ Finset.range n, st.d k = 0 :=
      Finset.sum_eq_zero (fun k hk => hdz k (Finset.mem_range.mp hk))
    have hsz := (Finset.sum_eq_zero_iff_of_nonneg
      (fun k hk => hns k (Finset.mem_range.mp hk))).mp (hbal.symm ▸ hsum)
    exact ⟨fun k hk => hsz k (Finset.mem_range.mpr hk), hdz⟩

theorem nwcrGo_spec (m n : ℕ) :
    ∀ (fuel i j : ℕ) (st : BState),
      m - i + (n - j) ≤ fuel → i ≤ m → j ≤ n →
      (∀ k, k < i → st.s k = 0) → (∀ k, k < j → st.d k = 0) →
      (∀ k, k < m → 0 ≤ st.s k) → (∀ k, k < n → 0 ≤ st.d k) →
      (∑ k ∈ Finset.range m, st.s k) = (∑ k ∈ Finset.range n, st.d k) →
      (∀ k, k < m → (nwcrGo m n fuel i j st).s k = 0) ∧
      (∀ k, k < n → (nwcrGo m n fuel i j st).d k = 0) ∧
      (∀ k, rowSum n (nwcrGo m n fuel i j st).alloc k + (nwcrGo m n fuel i j st).s k
          = rowSum n st.alloc k + st.s k) ∧
      (∀ k, colSum m (nwcrGo m n fuel i j st).alloc k + (nwcrGo m n fuel i j st).d k
          = colSum m st.alloc k + st.d k) := by
  intro fuel
  induction fuel with
  | zero =>
    intro i j st hfuel hi hj hpi hpj hns hnd hbal
    have hij : i = m ∨ j = n := by omega
    have hx := exhausted_of_edge m n i j st hi hj hpi hpj hns hnd hbal hij
    simp only [nwcrGo]
    exact ⟨hx.1, hx.2, fun _ => trivial, fun _ => trivial⟩
  | succ fuel IH =>
    intro i j st hfuel hi hj hpi hpj hns hnd hbal
    by_cases hij : i < m ∧ j < n
    · have hrun : nwcrGo m n (fuel + 1) i j st
          = if st.s i ≤ st.d j then nwcrGo m n fuel (i + 1) j (allocStep st i j)
            else nwcrGo m n fuel i (j + 1) (allocStep st i j) := by
        simp only [nwcrGo, if_pos hij]
      have hx_le_s : qmin (st.s i) (st.d j) ≤ st.s i := by
        rw [qmin_eq_min]; exact min_le_left _ _
      have hx_le_d : qmin (st.s i) (st.d j) ≤ st.d j := by
        rw [qmin_eq_min]; exact min_le_right _ _
      have hns1 : ∀ k, k < m → 0 ≤ (allocStep st i j).s k := by
        intro k hk
        show 0 ≤ upd st.s i (st.s i - qmin (st.s i) (st.d j)) k
        by_cases hki : k = i
        · subst hki; rw [upd_self]; linarith
        · rw [upd_ne _ _ _ hki]; exact hns k hk
      have hnd1 : ∀ k, k < n → 0 ≤ (allocStep st i j).d k := by
        intro k hk
        show 0 ≤ upd st.d j (st.d j - qmin (st.s i) (st.d j)) k
        by_cases hkj : k = j
        · subst hkj; rw [upd_self]; linarith
        · rw [upd_ne _ _ _ hkj]; exact hnd k hk
      have hbal1 : (∑ k ∈ Finset.range m, (allocStep st i j).s k)
          = ∑ k ∈ Finset.range n, (allocStep st i j).d k := by
        show (∑ k ∈ Finset.range m, upd st.s i (st.s i - qmin (st.s i) (st.d j)) k)
          = ∑ k ∈ Finset.range n, upd st.d j (st.d j - qmin (st.s i) (st.d j)) k
        rw [sum_upd _ _ _ hij.1, sum_upd _ _ _ hij.2, hbal]
        ring
      rw [hrun]
      by_cases hA : st.s i ≤ st.d j
      · rw [if_pos hA]
        have hpi1 : ∀ k, k < i + 1 → (allocStep st i j).s k = 0 := by
          intro k hk
          show upd st.s i (st.s i - qmin (st.s i) (st.d j)) k = 0
          by_cases hki : k = i
          · subst hki
            rw [upd_self]
            rw [show qmin (st.s k) (st.d j) = st.s k from if_pos hA]
            ring
          · rw [upd_ne _ _ _ hki]
            exact hpi k (by omega)
        have hpj1 : ∀ k, k < j → (allocStep st i j).d k = 0 := by
          intro k hk
          show upd st.d j (st.d j - qmin (st.s i) (st.d j)) k = 0
          rw [upd_ne _ _ _ (by omega)]
          exact hpj k hk
        have hrec := IH (i + 1) j (allocStep st i j) (by omega) (by omega) hj
          hpi1 hpj1 hns1 hnd1 hbal1
        refine ⟨hrec.1, hrec.2.1, ?_, ?_⟩
        · intro k
          rw [hrec.2.2.1 k, allocStep_conserve_row n st i j hij.2 k]
        · intro k
          rw [hrec.2.2.2 k, allocStep_conserve_col m st i j hij.1 k]
      · rw [if_neg hA]
        have hpi1 : ∀ k, k < i → (allocStep st i j).s k = 0 := by
          intro k hk
          show upd st.s i (st.s i - qmin (st.s i) (st.d j)) k = 0
          rw [upd_ne _ _ _ (by omega)]
          exact hpi k hk
        have hpj1 : ∀ k, k < j + 1 → (allocStep st i j).d k = 0 := by
          intro k hk
          show upd st.d j (st.d j - qmin (st.s i) (st.d j)) k = 0
          by_cases hkj : k = j
          · subst hkj
            rw [upd_self]
            rw [show qmin (st.s i) (st.d k) = st.d k from if_neg hA]
            ring
          · rw [upd_ne _ _ _ hkj]
            exact hpj k (by omega)
        have hrec := IH i (j + 1) (allocStep st i j) (by omega) hi (by omega)
          hpi1 hpj1 hns1 hnd1 hbal1
        refine ⟨hrec.1, hrec.2.1, ?_, ?_⟩
        · intro k
          rw [hrec.2.2.1 k, allocStep_conserve_row n st i j hij.2 k]
        · intro k
          rw [hrec.2.2.2 k, allocStep_conserve_col m st i j hij.1 k]
    · have hrun : nwcrGo m n (fuel + 1) i j st = st := by
        simp only [nwcrGo, if_neg hij]
      have hedge : i = m ∨ j = n := by omega
      have hx := exhausted_of_edge m n i j st hi hj hpi hpj hns hnd hbal hedge
      rw [hrun]
      exact ⟨hx.1, hx.2, fun _ => rfl, fun _ => rfl⟩

theorem nwcr_sums (m n : ℕ) (s d : ℕ → ℚ)
    (hs : ∀ k ∈ Finset.range m, 0 ≤ s k) (hd : ∀ k ∈ Finset.range n, 0 ≤ d k)
    (hbal : ∑ k ∈ Finset.range m, s k = ∑ k ∈ Finset.range n, d k) :
    (∀ i ∈ Finset.range m, rowSum n (nwcr m n s d).alloc i = s i) ∧
    (∀ j ∈ Finset.range n, colSum m (nwcr m n s d).alloc j = d j) := by
  have h := nwcrGo_spec m n (m + n) 0 0 (initState s d) (by omega)
    (Nat.zero_le m) (Nat.zero_le n) (fun k hk => absurd hk (Nat.not_lt_zero k))
    (fun k hk => absurd hk (Nat.not_lt_zero k))
    (fun k hk => hs k (Finset.mem_range.mpr hk))
    (fun k hk => hd k (Finset.mem_range.mpr hk)) hbal
  constructor
  · intro i hi
    have h1 := h.2.2.1 i
    have h2 := h.1 i (Finset.mem_range.mp hi)
    have h3 : rowSum n (initState s d).alloc i = 0 := by
      simp [rowSum, initState]
    rw [h2, h3] at h1
    simpa [nwcr] using h1
  · intro j hj
    have h1 := h.2.2.2 j
    have h2 := h.2.1 j (Finset.mem_range.mp hj)
    have h3 : colSum m (initState s d).alloc j = 0 := by
      simp [colSum, initState]
    rw [h2, h3] at h1
    simpa [nwcr] using h1

theorem chooseBy_mem (better : α → α → Bool) :
    ∀ (l : List α) (b : α), chooseBy better b l ∈ b :: l := by
  intro l
  induction l with
  | nil => intro b; simp [chooseBy]
  | cons x xs IH =>
    intro b
    simp only [chooseBy]
    have h := IH (if better x b then x else b)
    rcases List.mem_cons.mp h with h1 | h1
    · rw [h1]
      by_cases hb : better x b <;> simp [hb]
    · exact List.mem_cons_of_mem _ (List.mem_cons_of_mem _ h1)

theorem mem_cellsRM {m n : ℕ} {p : ℕ × ℕ} : p ∈ cellsRM m n ↔ p.1 < m ∧ p.2 < n := by
  cases p with
  | mk a b =>
    simp [cellsRM, List.mem_flatMap, List.mem_map, List.mem_range]

theorem mem_eligibleList {m n : ℕ} {s d : ℕ → ℚ} {p : ℕ × ℕ} :
    p ∈ eligibleList m n s d ↔ p.1 < m ∧ p.2 < n ∧ 0 < s p.1 ∧ 0 < d p.2 := by
  rw [eligibleList, List.mem_filter]
  simp [mem_cellsRM, and_assoc]

theorem eligibleList_ne_nil {m n : ℕ} {s d : ℕ → ℚ}
    (h1 : ∃ i ∈ Finset.range m, 0 < s i) (h2 : ∃ j ∈ Finset.range n, 0 < d j) :
    eligibleList m n s d ≠ [] := by
  obtain ⟨i, hi, hsi⟩ := h1
  obtain ⟨j, hj, hdj⟩ := h2
  apply List.ne_nil_of_mem (a := (i, j))
  rw [mem_eligibleList]
  exact ⟨Finset.mem_range.mp hi, Finset.mem_range.mp hj, hsi, hdj⟩

theorem filter_card_lt_of_zeroed (N i : ℕ) (f g : ℕ → ℚ) (hi : i < N) (hfi : 0 < f i)
    (hzero : g i = 0) (hagree : ∀ k, k ≠ i → g k = f k) :
    ((Finset.range N).filter (fun k => 0 < g k)).card
      < ((Finset.range N).filter (fun k => 0 < f k)).card := by
  apply Finset.card_lt_card
  have hsub : (Finset.range N).filter (fun k => 0 < g k)
      ⊆ (Finset.range N).filter (fun k => 0 < f k) := by
    intro k hk
    rcases Finset.mem_filter.mp hk with ⟨hkr, hkpos⟩
    by_cases hki : k = i
    · subst hki
      rw [hzero] at hkpos
      exact absurd hkpos (lt_irrefl 0)
    · rw [hagree k hki] at hkpos
      exact Finset.mem_filter.mpr ⟨hkr, hkpos⟩
  rw [Finset.ssubset_iff_of_subset hsub]
  refine ⟨i, Finset.mem_filter.mpr ⟨Finset.mem_range.mpr hi, hfi⟩, ?_⟩
  simp [Finset.mem_filter, hzero]

theorem filter_card_le_of_imp (N : ℕ) (f g : ℕ → ℚ) (hmono : ∀ k, 0 < g k → 0 < f k) :
    ((Finset.range N).filter (fun k => 0 < g k)).card
      ≤ ((Finset.range N).filter (fun k => 0 < f k)).card := by
  apply Finset.card_le_card
  intro k hk
  rcases Finset.mem_filter.mp hk with ⟨hkr, hkpos⟩
  exact Finset.mem_filter.mpr ⟨hkr, hmono k hkpos⟩

theorem phiCount_allocStep_lt (m n : ℕ) (st : BState) (i j : ℕ)
    (hi : i < m) (hj : j < n) (hsi : 0 < st.s i) (hdj : 0 < st.d j) :
    phiCount m n (allocStep st i j) < phiCount m n st := by
  have hs_eq : ∀ k, k ≠ i → (allocStep st i j).s k = st.s k := by
    intro k hk
    exact upd_ne _ _ _ hk
  have hd_eq : ∀ k, k ≠ j → (allocStep st i j).d k = st.d k := by
    intro k hk
    exact upd_ne _ _ _ hk
  by_cases hA : st.s i ≤ st.d j
  · have hzero : (allocStep st i j).s i = 0 := by
      show upd st.s i (st.s i - qmin (st.s i) (st.d j)) i = 0
      rw [upd_self, show qmin (st.s i) (st.d j) = st.s i from if_pos hA]
      ring
    have h1 := filter_card_lt_of_zeroed m i st.s (allocStep st i j).s hi hsi hzero hs_eq
    have h2 : ((Finset.range n).filter (fun k => 0 < (allocStep st i j).d k)).card
        ≤ ((Finset.range n).filter (fun k => 0 < st.d k)).card := by
      apply filter_card_le_of_imp
      intro k hk
      by_cases hkj : k = j
      · subst hkj; exact hdj
      · rw [hd_eq k hkj] at hk; exact hk
    unfold phiCount
    omega
  · have hzero : (allocStep st i j).d j = 0 := by
      show upd st.d j (st.d j - qmin (st.s i) (st.d j)) j = 0
      rw [upd_self, show qmin (st.s i) (st.d j) = st.d j from if_neg hA]
      ring
    have h1 := filter_card_lt_of_zeroed n j st.d (allocStep st i j).d hj hdj hzero hd_eq
    have h2 : ((Finset.range m).filter (fun k => 0 < (allocStep st i j).s k)).card
        ≤ ((Finset.range m).filter (fun k => 0 < st.s k)).card := by
      apply filter_card_le_of_imp
      intro k hk
      by_cases hki : k = i
      · subst hki; exact hsi
      · rw [hs_eq k hki] at hk; exact hk
    unfold phiCount
    omega

theorem allocStep_nonneg_s (m : ℕ) (st : BState) (i j : ℕ)
    (hns : ∀ k, k < m → 0 ≤ st.s k) : ∀ k, k < m → 0 ≤ (allocStep st i j).s k := by
  intro k hk
  show 0 ≤ upd st.s i (st.s i - qmin (st.s i) (st.d j)) k
  have hx : qmin (st.s i) (st.d j) ≤ st.s i := by
    rw [qmin_eq_min]; exact min_le_left _ _
  by_cases hki : k = i
  · subst hki; rw [upd_self]; linarith
  · rw [upd_ne _ _ _ hki]; exact hns k hk

theorem allocStep_nonneg_d (n : ℕ) (st : BState) (i j : ℕ)
    (hnd : ∀ k, k < n → 0 ≤ st.d k) : ∀ k, k < n → 0 ≤ (allocStep st i j).d k := by
  intro k hk
  show 0 ≤ upd st.d j (st.d j - qmin (st.s i) (st.d j)) k
  have hx : qmin (st.s i) (st.d j) ≤ st.d j := by
    rw [qmin_eq_min]; exact min_le_right _ _
  by_cases hkj : k = j
  · subst hkj; rw [upd_self]; linarith
  · rw [upd_ne _ _ _ hkj]; exact hnd k hk

theorem allocStep_balance (m n : ℕ) (st : BState) (i j : ℕ) (hi : i < m) (hj : j < n)
    (hbal : (∑ k ∈ Finset.range m, st.s k) = ∑ k ∈ Finset.range n, st.d k) :
    (∑ k ∈ Finset.range m, (allocStep st i j).s k)
      = ∑ k ∈ Finset.range n, (allocStep st i j).d k := by
  show (∑ k ∈ Finset.range m, upd st.s i (st.s i - qmin (st.s i) (st.d j)) k)
    = ∑ k ∈ Finset.range n, upd st.d j (st.d j - qmin (st.s i) (st.d j)) k
  rw [sum_upd _ _ _ hi, sum_upd _ _ _ hj, hbal]
  ring

theorem exhausted_of_no_eligible (m n : ℕ) (st : BState)
    (hcond : ¬ ((∃ i ∈ Finset.range m, 0 < st.s i) ∧ ∃ j ∈ Finset.range n, 0 < st.d j))
    (hns : ∀ k, k < m → 0 ≤ st.s k) (hnd : ∀ k, k < n → 0 ≤ st.d k)
    (hbal : (∑ k ∈ Finset.range m, st.s k) = ∑ k ∈ Finset.range n, st.d k) :
    (∀ k, k < m → st.s k = 0) ∧ ∀ k, k < n → st.d k = 0 := by
  rcases not_and_or.mp hcond with h | h
  · have hsz : ∀ k, k < m → st.s k = 0 := by
      intro k hk
      by_contra hne
      exact h ⟨k, Finset.mem_range.mpr hk,
        lt_of_le_of_ne (hns k hk) (Ne.symm hne)⟩
    have hsum : ∑ k ∈ Finset.range m, st.s k = 0 :=
      Finset.sum_eq_zero (fun k hk => hsz k (Finset.mem_range.mp hk))
    have hdz := (Finset.sum_eq_zero_iff_of_nonneg
      (fun k hk => hnd k (Finset.mem_range.mp hk))).mp (hbal ▸ hsum)
    exact ⟨hsz, fun k hk => hdz k (Finset.mem_range.mpr hk)⟩
  · have hdz : ∀ k, k < n → st.d k = 0 := by
      intro k hk
      by_contra hne
      exact h ⟨k, Finset.mem_range.mpr hk,
        lt_of_le_of_ne (hnd k hk) (Ne.symm hne)⟩
    have hsum : ∑ k ∈ Finset.range n, st.d k = 0 :=
      Finset.sum_eq_zero (fun k hk => hdz k (Finset.mem_range.mp hk))
    have hsz := (Finset.sum_eq_zero_iff_of_nonneg
      (fun k hk => hns k (Finset.mem_range.mp hk))).mp (hbal.symm ▸ hsum)
    exact ⟨fun k hk => hsz k (Finset.mem_range.mpr hk), hdz⟩

theorem greedyGo_spec (m n : ℕ) (pick : (ℕ → ℚ) → (ℕ → ℚ) → ℕ × ℕ)
    (hpick : PickValid m n pick) :
    ∀ (fuel : ℕ) (st : BState),
      phiCount m n st ≤ fuel →
      (∀ k, k < m → 0 ≤ st.s k) → (∀ k, k < n → 0 ≤ st.d k) →
      (∑ k ∈ Finset.range m, st.s k) = (∑ k ∈ Finset.range n, st.d k) →
      (∀ k, k < m → (greedyGo m n pick fuel st).s k = 0) ∧
      (∀ k, k < n → (greedyGo m n pick fuel st).d k = 0) ∧
      (∀ k, rowSum n (greedyGo m n pick fuel st).alloc k + (greedyGo m n pick fuel st).s k
          = rowSum n st.alloc k + st.s k) ∧
      (∀ k, colSum m (greedyGo m n pick fuel st).alloc k + (greedyGo m n pick fuel st).d k
          = colSum m st.alloc k + st.d k) := by
  intro fuel
  induction fuel with
  | zero =>
    intro st hfuel hns hnd hbal
    have hcond : ¬ ((∃ i ∈ Finset.range m, 0 < st.s i) ∧ ∃ j ∈ Finset.range n, 0 < st.d j) := by
      rintro ⟨⟨i, hi, hsi⟩, -⟩
      have hmem : i ∈ (Finset.range m).filter (fun k => 0 < st.s k) :=
        Finset.mem_filter.mpr ⟨hi, hsi⟩
      have hpos : 0 < ((Finset.range m).filter (fun k => 0 < st.s k)).card :=
        Finset.card_pos.mpr ⟨i, hmem⟩
      unfold phiCount at hfuel
      omega
    have hx := exhausted_of_no_eligible m n st hcond hns hnd hbal
    simp only [greedyGo]
    exact ⟨hx.1, hx.2, fun _ => trivial, fun _ => trivial⟩
  | succ fuel IH =>
    intro st hfuel hns hnd hbal
    by_cases hcond : (∃ i ∈ Finset.range m, 0 < st.s i) ∧ ∃ j ∈ Finset.range n, 0 < st.d j
    · have hrun : greedyGo m n pick (fuel + 1) st
          = greedyGo m n pick fuel (allocStep st (pick st.s st.d).1 (pick st.s st.d).2) := by
        simp only [greedyGo, if_pos hcond]
      obtain ⟨hpm, hpn, hps, hpd⟩ := hpick st.s st.d hcond.1 hcond.2
      have hphi := phiCount_allocStep_lt m n st (pick st.s st.d).1 (pick st.s st.d).2
        hpm hpn hps hpd
      have hrec := IH (allocStep st (pick st.s st.d).1 (pick st.s st.d).2)
        (by omega)
        (allocStep_nonneg_s m st _ _ hns) (allocStep_nonneg_d n st _ _ hnd)
        (allocStep_balance m n st _ _ hpm hpn hbal)
      rw [hrun]
      refine ⟨hrec.1, hrec.2.1, ?_, ?_⟩
      · intro k
        rw [hrec.2.2.1 k, allocStep_conserve_row n st _ _ hpn k]
      · intro k
        rw [hrec.2.2.2 k, allocStep_conserve_col m st _ _ hpm k]
    · have hrun : greedyGo m n pick (fuel + 1) st = st := by
        simp only [greedyGo, if_neg hcond]
      have hx := exhausted_of_no_eligible m n st hcond hns hnd hbal
      rw [hrun]
      exact ⟨hx.1, hx.2, fun _ => rfl, fun _ => rfl⟩

theorem greedy_sums (m n : ℕ) (pick : (ℕ → ℚ) → (ℕ → ℚ) → ℕ × ℕ)
    (hpick : PickValid m n pick) (s d : ℕ → ℚ)
    (hs : ∀ k ∈ Finset.range m, 0 ≤ s k) (hd : ∀ k ∈ Finset.range n, 0 ≤ d k)
    (hbal : ∑ k ∈ Finset.range m, s k = ∑ k ∈ Finset.range n, d k) :
    (∀ i ∈ Finset.range m,
      rowSum n (greedyGo m n pick (m + n) (initState s d)).alloc i = s i) ∧
    (∀ j ∈ Finset.range n,
      colSum m (greedyGo m n pick (m + n) (initState s d)).alloc j = d j) := by
  have hphi : phiCount m n (initState s d) ≤ m + n := by
    unfold phiCount
    have h1 := Finset.card_filter_le (Finset.range m) (fun k => 0 < (initState s d).s k)
    have h2 := Finset.card_filter_le (Finset.range n) (fun k => 0 < (initState s d).d k)
    rw [Finset.card_range] at h1
    rw [Finset.card_range] at h2
    omega
  have h := greedyGo_spec m n pick hpick (m + n) (initState s d) hphi
    (fun k hk => hs k (Finset.mem_range.mpr hk))
    (fun k hk => hd k (Finset.mem_range.mpr hk)) hbal
  constructor
  · intro i hi
    have h1 := h.2.2.1 i
    have h2 := h.1 i (Finset.mem_range.mp hi)
    have h3 : rowSum n (initState s d).alloc i = 0 := by
      simp [rowSum, initState]
    rw [h2, h3] at h1
    simpa using h1
  · intro j hj
    have h1 := h.2.2.2 j
    have h2 := h.2.1 j (Finset.mem_range.mp hj)
    have h3 : colSum m (initState s d).alloc j = 0 := by
      simp [colSum, initState]
    rw [h2, h3] at h1
    simpa using h1

theorem leastCostPick_valid (m n : ℕ) (cost : ℕ → ℕ → ℚ) :
    PickValid m n (leastCostPick m n cost) := by
  intro s d h1 h2
  have hne := eligibleList_ne_nil h1 h2
  rcases hlist : eligibleList m n s d with - | ⟨p, rest⟩
  · exact absurd hlist hne
  · have hmem : leastCostPick m n cost s d ∈ p :: rest := by
      simp only [leastCostPick, hlist]
      exact chooseBy_mem _ rest p
    rw [← hlist] at hmem
    exact mem_eligibleList.mp hmem

theorem mem_posFilter {N : ℕ} {f : ℕ → ℚ} {k : ℕ} :
    k ∈ (List.range N).filter (fun i => decide (0 < f i)) ↔ k < N ∧ 0 < f k := by
  simp [List.mem_filter, List.mem_range]

theorem rowMinimaPick_valid (m n : ℕ) (cost : ℕ → ℕ → ℚ) :
    PickValid m n (rowMinimaPick m n cost) := by
  intro s d h1 h2
  obtain ⟨i0, hi0, hsi0⟩ := h1
  obtain ⟨j0, hj0, hdj0⟩ := h2
  have hrmem : i0 ∈ (List.range m).filter (fun i => decide (0 < s i)) :=
    mem_posFilter.mpr ⟨Finset.mem_range.mp hi0, hsi0⟩
  have hcmem : j0 ∈ (List.range n).filter (fun j => decide (0 < d j)) :=
    mem_posFilter.mpr ⟨Finset.mem_range.mp hj0, hdj0⟩
  rcases hR : (List.range m).filter (fun i => decide (0 < s i)) with - | ⟨i, ri⟩
  · rw [hR] at hrmem
    cases hrmem
  · rcases hC : (List.range n).filter (fun j => decide (0 < d j)) with - | ⟨j, rj⟩
    · rw [hC] at hcmem
      cases hcmem
    · have hres : rowMinimaPick m n cost s d
          = (i, chooseBy (fun a b => decide (cost i a < cost i b)) j rj) := by
        simp only [rowMinimaPick, hR, hC]
      have hiF : i ∈ (List.range m).filter (fun k => decide (0 < s k)) := by
        rw [hR]; exact List.mem_cons_self i ri
      have hjF : chooseBy (fun a b => decide (cost i a < cost i b)) j rj
          ∈ (List.range n).filter (fun k => decide (0 < d k)) := by
        rw [hC]; exact chooseBy_mem _ rj j
      have hiP := mem_posFilter.mp hiF
      have hjP := mem_posFilter.mp hjF
      rw [hres]
      exact ⟨hiP.1, hjP.1, hiP.2, hjP.2⟩

theorem vamPick_valid (m n : ℕ) (cost : ℕ → ℕ → ℚ) :
    PickValid m n (vamPick m n cost) := by
  intro s d h1 h2
  obtain ⟨i0, hi0, hsi0⟩ := h1
  obtain ⟨j0, hj0, hdj0⟩ := h2
  have hrmem : i0 ∈ (List.range m).filter (fun i => decide (0 < s i)) :=
    mem_posFilter.mpr ⟨Finset.mem_range.mp hi0, hsi0⟩
  have hcmem : j0 ∈ (List.range n).filter (fun j => decide (0 < d j)) :=
    mem_posFilter.mpr ⟨Finset.mem_range.mp hj0, hdj0⟩
  have key : vamPick m n cost s d
      ∈ eligibleList m n s d := by
    simp only [vamPick]
    split
    next heq =>
      exfalso
      rcases List.append_eq_nil.mp heq with ⟨hr0, -⟩
      rw [List.map_eq_nil_iff] at hr0
      rw [hr0] at hrmem
      cases hrmem
    next l ls heq =>
      have hbest : chooseBy (fun a b => decide ((if b.1 then
            penaltyOf (((List.range n).filter (fun j => decide (0 < d j))).map
              (fun j => cost b.2 j))
            else penaltyOf (((List.range m).filter (fun i => decide (0 < s i))).map
              (fun i => cost i b.2))) < (if a.1 then
            penaltyOf (((List.range n).filter (fun j => decide (0 < d j))).map
              (fun j => cost a.2 j))
            else penaltyOf (((List.range m).filter (fun i => decide (0 < s i))).map
              (fun i => cost i a.2))))) l ls ∈ l :: ls := chooseBy_mem _ ls l
      rw [← heq] at hbest
      split
      next hcond =>
        rcases List.mem_append.mp hbest with hb | hb
        · obtain ⟨i, hiF, hieq⟩ := List.mem_map.mp hb
          rw [← hieq]
          split
          next heq2 =>
            exfalso
            rw [heq2] at hcmem
            cases hcmem
          next j rj heq2 =>
            have hjC : chooseBy (fun a b =>
                decide (cost (true, i).2 a < cost (true, i).2 b)) j rj
                ∈ (List.range n).filter (fun k => decide (0 < d k)) := by
              rw [heq2]
              exact chooseBy_mem _ rj j
            have hiP := mem_posFilter.mp hiF
            have hjP := mem_posFilter.mp hjC
            rw [mem_eligibleList]
            exact ⟨hiP.1, hjP.1, hiP.2, hjP.2⟩
        · obtain ⟨j, hjF, hjeq⟩ := List.mem_map.mp hb
          exfalso
          rw [← hjeq] at hcond
          simp at hcond
      next hcond =>
        rcases List.mem_append.mp hbest with hb | hb
        · obtain ⟨i, hiF, hieq⟩ := List.mem_map.mp hb
          exfalso
          rw [← hieq] at hcond
          simp at hcond
        · obtain ⟨j, hjF, hjeq⟩ := List.mem_map.mp hb
          rw [← hjeq]
          split
          next heq2 =>
            exfalso
            rw [heq2] at hrmem
            cases hrmem
          next i ri heq2 =>
            have hiC : chooseBy (fun a b =>
                decide (cost a (false, j).2 < cost b (false, j).2)) i ri
                ∈ (List.range m).filter (fun k => decide (0 < s k)) := by
              rw [heq2]
              exact chooseBy_mem _ ri i
            have hiP := mem_posFilter.mp hiC
            have hjP := mem_posFilter.mp hjF
            rw [mem_eligibleList]
            exact ⟨hiP.1, hjP.1, hiP.2, hjP.2⟩
  exact mem_eligibleList.mp key

/-! ### Claim theorems -/

/-- C1: for every balanced transportation problem (non-negative data, total
supply equal to total demand) and every InitialSolutionBuilder strategy
(`nwcr`, `least_cost`, `vam`, `row_minima`), the returned AllocationMatrix
has every row summing to its supply and every column summing to its demand —
exactly, in the rational model, hence within any tolerance ε. -/
theorem spec_c1_builder_row_col_sums (method : MethodKey) (m n : ℕ)
    (cost : ℕ → ℕ → ℚ) (s d : ℕ → ℚ)
    (hs : ∀ k ∈ Finset.range m, 0 ≤ s k) (hd : ∀ k ∈ Finset.range n, 0 ≤ d k)
    (hbal : ∑ k ∈ Finset.range m, s k = ∑ k ∈ Finset.range n, d k) :
    (∀ i ∈ Finset.range m,
      rowSum n (buildInitial method m n cost s d).alloc i = s i) ∧
    (∀ j ∈ Finset.range n,
      colSum m (buildInitial method m n cost s d).alloc j = d j) := by
  cases method with
  | nwcr => exact nwcr_sums m n s d hs hd hbal
  | least_cost => exact greedy_sums m n _ (leastCostPick_valid m n cost) s d hs hd hbal
  | vam => exact greedy_sums m n _ (vamPick_valid m n cost) s d hs hd hbal
  | row_minima => exact greedy_sums m n _ (rowMinimaPick_valid m n cost) s d hs hd hbal

unseal Rat.sub Rat.add Rat.mul in
/-- Witness for C1 at the spec's Scenario B data with the NWCR strategy. -/
theorem spec_c1_witness :
    (∑ k ∈ Finset.range 3, vec [100, 150, 125] k
      = ∑ k ∈ Finset.range 3, vec [130, 120, 125] k) ∧
    ((∀ i ∈ Finset.range 3,
      rowSum 3 (buildInitial .nwcr 3 3 (mat [[8, 6, 10], [9, 12, 13], [14, 7, 16]])
        (vec [100, 150, 125]) (vec [130, 120, 125])).alloc i = vec [100, 150, 125] i) ∧
    (∀ j ∈ Finset.range 3,
      colSum 3 (buildInitial .nwcr 3 3 (mat [[8, 6, 10], [9, 12, 13], [14, 7, 16]])
        (vec [100, 150, 125]) (vec [130, 120, 125])).alloc j = vec [130, 120, 125] j)) :=
  ⟨by decide,
    spec_c1_builder_row_col_sums .nwcr 3 3
      (mat [[8, 6, 10], [9, 12, 13], [14, 7, 16]])
      (vec [100, 150, 125]) (vec [130, 120, 125])
      (by decide) (by decide) (by decide)⟩

unseal Rat.sub Rat.add Rat.mul in
/-- C2: NWCR on Scenario B (costs `[[8,6,10],[9,12,13],[14,7,16]]`, supply
`[100,150,125]`, demand `[130,120,125]`) returns the allocation
`[[100,0,0],[30,120,0],[0,0,125]]` with total cost 4510, and the trace
contains the zero-valued phantom step at cell `(2, 1)` that the
simultaneous-exhaustion tie-break forces. -/
theorem spec_c2_nwcr_scenario_b :
    toMat 3 3 (buildInitial .nwcr 3 3 (mat [[8, 6, 10], [9, 12, 13], [14, 7, 16]])
        (vec [100, 150, 125]) (vec [130, 120, 125])).alloc
      = [[100, 0, 0], [30, 120, 0], [0, 0, 125]] ∧
    (⟨2, 1, 0⟩ : AllocStep) ∈ (buildInitial .nwcr 3 3
        (mat [[8, 6, 10], [9, 12, 13], [14, 7, 16]])
        (vec [100, 150, 125]) (vec [130, 120, 125])).steps ∧
    totalCost 3 3 (mat [[8, 6, 10], [9, 12, 13], [14, 7, 16]])
      (buildInitial .nwcr 3 3 (mat [[8, 6, 10], [9, 12, 13], [14, 7, 16]])
        (vec [100, 150, 125]) (vec [130, 120, 125])).alloc = 4510 := by
  decide

unseal Rat.sub Rat.add Rat.mul Rat.inv in
/-- C3: the AssignmentSolver (Hungarian algorithm) on the square matrix
`[[9,2,7],[6,4,3],[5,8,1]]` returns the assignment pairs `(0,1)`, `(1,0)`,
`(2,2)` and total cost 9. -/
theorem spec_c3_hungarian_scenario_a :
    assignmentOf (solveAssignment [[9, 2, 7], [6, 4, 3], [5, 8, 1]])
      = some [(0, 1), (1, 0), (2, 2)] ∧
    totalCostOf (solveAssignment [[9, 2, 7], [6, 4, 3], [5, 8, 1]]) = some 9 := by
  decide

theorem normalizeT_of_balanced (costs : List (List ℚ)) (supply demand : List ℚ)
    (hbal : supply.sum = demand.sum) :
    normalizeT costs supply demand = ⟨costs, supply, demand, none⟩ := by
  simp [normalizeT, hbal]

theorem validateT_shape (p : TransportationProblem) :
    (∃ msg, validateT p = ⟨false, none, none, none, none, some msg⟩) ∨
    validateT p = ⟨true, some p.supply.sum, some p.demand.sum,
      some (decide (p.supply.sum = p.demand.sum)),
      some [p.costs.length, (p.costs.headD []).length], none⟩ := by
  simp only [validateT]
  split_ifs <;> first
  | exact Or.inl ⟨_, rfl⟩
  | exact Or.inr rfl

/-- C4: normalizing an already-balanced problem returns costs, supply and
demand unchanged with `dummy_added` null; and the output of any
normalization is balanced, so normalizing a normalized problem is a no-op. -/
theorem spec_c4_normalizer_idempotent (costs : List (List ℚ)) (supply demand : List ℚ) :
    (supply.sum = demand.sum →
      normalizeT costs supply demand = ⟨costs, supply, demand, none⟩) ∧
    normalizeT (normalizeT costs supply demand).costs
        (normalizeT costs supply demand).supply
        (normalizeT costs supply demand).demand
      = ⟨(normalizeT costs supply demand).costs,
          (normalizeT costs supply demand).supply,
          (normalizeT costs supply demand).demand, none⟩ := by
  refine ⟨normalizeT_of_balanced costs supply demand, ?_⟩
  by_cases h1 : demand.sum < supply.sum
  · simp only [normalizeT, if_pos h1]
    exact normalizeT_of_balanced _ _ _ (by simp)
  · by_cases h2 : supply.sum < demand.sum
    · simp only [normalizeT, if_neg h1, if_pos h2]
      exact normalizeT_of_balanced _ _ _ (by simp)
    · simp only [normalizeT, if_neg h1, if_neg h2]

unseal Rat.add Rat.sub in
/-- Witness for C4 at a concrete balanced problem. -/
theorem spec_c4_witness :
    (([10, 20] : List ℚ).sum = ([15, 15] : List ℚ).sum) ∧
    normalizeT [[1, 2], [3, 4]] [10, 20] [15, 15]
      = ⟨[[1, 2], [3, 4]], [10, 20], [15, 15], none⟩ ∧
    normalizeT (normalizeT [[1, 2], [3, 4]] [10, 20] [15, 15]).costs
        (normalizeT [[1, 2], [3, 4]] [10, 20] [15, 15]).supply
        (normalizeT [[1, 2], [3, 4]] [10, 20] [15, 15]).demand
      = ⟨(normalizeT [[1, 2], [3, 4]] [10, 20] [15, 15]).costs,
          (normalizeT [[1, 2], [3, 4]] [10, 20] [15, 15]).supply,
          (normalizeT [[1, 2], [3, 4]] [10, 20] [15, 15]).demand, none⟩ :=
  ⟨by decide,
    (spec_c4_normalizer_idempotent [[1, 2], [3, 4]] [10, 20] [15, 15]).1 (by decide),
    (spec_c4_normalizer_idempotent [[1, 2], [3, 4]] [10, 20] [15, 15]).2⟩

/-- C8: every ValidationResponse has a boolean `valid`; when `valid` is true
it carries `total_supply`, `total_demand`, `balanced` and `matrix_size` and
no error; when `valid` is false it carries an error description and none of
the data fields. -/
theorem spec_c8_validation_response_shape (p : TransportationProblem) :
    ((validateT p).valid = true →
      (validateT p).total_supply.isSome = true ∧
      (validateT p).total_demand.isSome = true ∧
      (validateT p).balanced.isSome = true ∧
      (validateT p).matrix_size.isSome = true ∧
      (validateT p).error = none) ∧
    ((validateT p).valid = false →
      (validateT p).error.isSome = true ∧
      (validateT p).total_supply = none ∧
      (validateT p).total_demand = none ∧
      (validateT p).balanced = none ∧
      (validateT p).matrix_size = none) := by
  rcases validateT_shape p with ⟨msg, h⟩ | h <;> rw [h] <;> simp

/-- Witness for C8 at a concrete valid request. -/
theorem spec_c8_witness :
    (validateT ⟨[[1, 2], [3, 4]], [10, 20], [15, 15], .nwcr, none, none⟩).valid = true ∧
    ((validateT ⟨[[1, 2], [3, 4]], [10, 20], [15, 15], .nwcr, none, none⟩).total_supply.isSome
        = true ∧
      (validateT ⟨[[1, 2], [3, 4]], [10, 20], [15, 15], .nwcr, none, none⟩).total_demand.isSome
        = true ∧
      (validateT ⟨[[1, 2], [3, 4]], [10, 20], [15, 15], .nwcr, none, none⟩).balanced.isSome
        = true ∧
      (validateT ⟨[[1, 2], [3, 4]], [10, 20], [15, 15], .nwcr, none, none⟩).matrix_size.isSome
        = true ∧
      (validateT ⟨[[1, 2], [3, 4]], [10, 20], [15, 15], .nwcr, none, none⟩).error = none) :=
  ⟨by decide,
    (spec_c8_validation_response_shape
      ⟨[[1, 2], [3, 4]], [10, 20], [15, 15], .nwcr, none, none⟩).1 (by decide)⟩

/-- C10: after `handleMatrixSizeChange(rows, cols)` the problem state has the
shape the validator requires: `rows × cols` costs of ones, supply of length
`rows` of hundreds, demand of length `cols` of hundreds — and (for the
selectable sizes, which are at least 1) the validator accepts it. -/
theorem spec_c10_matrix_size_change (prev : TransportationProblem) (rows cols : ℕ)
    (hr : 1 ≤ rows) (hc : 1 ≤ cols) :
    (handleMatrixSizeChange prev rows cols).costs.length = rows ∧
    (∀ r ∈ (handleMatrixSizeChange prev rows cols).costs,
      r.length = cols ∧ ∀ x ∈ r, x = 1) ∧
    (handleMatrixSizeChange prev rows cols).supply.length = rows ∧
    (∀ x ∈ (handleMatrixSizeChange prev rows cols).supply, x = 100) ∧
    (handleMatrixSizeChange prev rows cols).demand.length = cols ∧
    (∀ x ∈ (handleMatrixSizeChange prev rows cols).demand, x = 100) ∧
    (validateT (handleMatrixSizeChange prev rows cols)).valid = true := by
  obtain ⟨r1, rfl⟩ : ∃ r1, rows = r1 + 1 := ⟨rows - 1, by omega⟩
  have hc0 : cols ≠ 0 := by omega
  refine ⟨by simp [handleMatrixSizeChange], ?_, by simp [handleMatrixSizeChange],
    ?_, by simp [handleMatrixSizeChange], ?_, ?_⟩
  · intro r hrm
    rw [List.eq_of_mem_replicate hrm]
    exact ⟨by simp, fun x hx => List.eq_of_mem_replicate hx⟩
  · exact fun x hx => List.eq_of_mem_replicate hx
  · exact fun x hx => List.eq_of_mem_replicate hx
  · norm_num [handleMatrixSizeChange, validateT, List.replicate_succ,
      List.any_eq_true, List.all_eq_true, List.mem_replicate, List.mem_cons, hc0]

/-- Witness for C10 at a concrete previous state and size (2, 3). -/
theorem spec_c10_witness :
    (validateT (handleMatrixSizeChange ⟨[[1]], [1], [1], .nwcr, none, none⟩ 2 3)).valid
      = true :=
  (spec_c10_matrix_size_change ⟨[[1]], [1], [1], .nwcr, none, none⟩ 2 3
    (by decide) (by decide)).2.2.2.2.2.2

theorem mapWithIndex_length (f : ℕ → α → β) :
    ∀ (k : ℕ) (l : List α), (mapWithIndex f k l).length = l.length := by
  intro k l
  induction l generalizing k with
  | nil => simp [mapWithIndex]
  | cons a as IH => simp [mapWithIndex, IH]

theorem mapWithIndex_getElem? (f : ℕ → α → β) :
    ∀ (l : List α) (k i : ℕ), (mapWithIndex f k l)[i]? = (l[i]?).map (f (k + i)) := by
  intro l
  induction l with
  | nil => intro k i; simp [mapWithIndex]
  | cons a as IH =>
    intro k i
    cases i with
    | zero => simp [mapWithIndex]
    | succ i =>
      simp only [mapWithIndex, List.getElem?_cons_succ, IH (k + 1) i]
      have : k + 1 + i = k + (i + 1) := by omega
      rw [this]

/-- C9: `handleCellChange` leaves every cell other than `(row, col)` (and the
matrix shape) unchanged; the target cell becomes the parsed value when it is
a nonzero number — negative values included — and 0 otherwise (NaN or zero
parse result, the falsy cases of `parseFloat(value) || 0`). -/
theorem spec_c9_handle_cell_change (matrix : List (List ℚ)) (row col : ℕ)
    (pv : Option ℚ) :
    (handleCellChange matrix row col pv).length = matrix.length ∧
    (∀ i j : ℕ, ¬(i = row ∧ j = col) →
      ((handleCellChange matrix row col pv).getD i []).getD j 0
        = (matrix.getD i []).getD j 0) ∧
    (row < matrix.length → col < (matrix.getD row []).length →
      ((handleCellChange matrix row col pv).getD row []).getD col 0 = jsOrZero pv) ∧
    (∀ q : ℚ, q ≠ 0 → jsOrZero (some q) = q) ∧
    jsOrZero none = 0 ∧ jsOrZero (some 0) = 0 := by
  have houter : ∀ i : ℕ, (handleCellChange matrix row col pv)[i]?
      = (matrix[i]?).map (fun r => if i = row then
          mapWithIndex (fun j c => if j = col then jsOrZero pv else c) 0 r else r) := by
    intro i
    have h := mapWithIndex_getElem? (fun i r => if i = row then
      mapWithIndex (fun j c => if j = col then jsOrZero pv else c) 0 r else r) matrix 0 i
    simpa [handleCellChange] using h
  refine ⟨mapWithIndex_length _ 0 matrix, ?_, ?_, ?_, rfl, by simp [jsOrZero]⟩
  · intro i j hij
    rw [List.getD_eq_getElem?_getD (handleCellChange matrix row col pv) i,
      List.getD_eq_getElem?_getD matrix i, houter i]
    rcases hmi : matrix[i]? with - | r
    · rfl
    · simp only [Option.map_some', Option.getD_some]
      by_cases hi : i = row
      · subst hi
        have hj : j ≠ col := fun hj => hij ⟨rfl, hj⟩
        rw [if_pos rfl,
          List.getD_eq_getElem?_getD
            (mapWithIndex (fun j c => if j = col then jsOrZero pv else c) 0 r) j,
          List.getD_eq_getElem?_getD r j, mapWithIndex_getElem?]
        rcases hrj : r[j]? with - | c
        · rfl
        · simp [hj]
      · rw [if_neg hi]
  · intro hrow hcol
    rw [List.getD_eq_getElem?_getD (handleCellChange matrix row col pv) row, houter row]
    rw [List.getElem?_eq_getElem hrow]
    simp only [Option.map_some', Option.getD_some, if_pos rfl, if_true]
    have hcol' : col < matrix[row].length := by
      rw [List.getD_eq_getElem?_getD matrix row, List.getElem?_eq_getElem hrow] at hcol
      simpa using hcol
    rw [List.getD_eq_getElem?_getD
        (mapWithIndex (fun j c => if j = col then jsOrZero pv else c) 0 matrix[row]) col,
      mapWithIndex_getElem?, List.getElem?_eq_getElem hcol']
    simp
  · intro q hq
    simp [jsOrZero, hq]

/-- Witness for C9 at a concrete matrix, cell and parsed value. -/
theorem spec_c9_witness :
    ¬((0 : ℕ) = 1 ∧ (1 : ℕ) = 0) ∧
    ((handleCellChange [[1, 2], [3, 4]] 1 0 (some (-5))).getD 0 []).getD 1 0
      = (([[1, 2], [3, 4]] : List (List ℚ)).getD 0 []).getD 1 0 ∧
    (1 < ([[1, 2], [3, 4]] : List (List ℚ)).length →
      0 < (([[1, 2], [3, 4]] : List (List ℚ)).getD 1 []).length →
      ((handleCellChange [[1, 2], [3, 4]] 1 0 (some (-5))).getD 1 []).getD 0 0
        = jsOrZero (some (-5))) :=
  ⟨by decide,
    (spec_c9_handle_cell_change [[1, 2], [3, 4]] 1 0 (some (-5))).2.1 0 1 (by decide),
    (spec_c9_handle_cell_change [[1, 2], [3, 4]] 1 0 (some (-5))).2.2.1⟩

/-- C7: a TransportationProblem request has a method drawn from exactly the
four keys, optional `use_modi` and `max_iterations`; an omitted
`max_iterations` defaults to 10 (both in `optimizeWithModi`'s default
parameter and in the solve pipeline), and a request the validator accepts
has supply of length `m` and demand of length `n` for its `m × n` costs. -/
theorem spec_c7_request_shape :
    (∀ k : MethodKey, k = .nwcr ∨ k = .least_cost ∨ k = .vam ∨ k = .row_minima) ∧
    (∀ a c : List (List ℚ), (optimizeWithModiBody a c none).max_iterations = 10) ∧
    (∀ (a c : List (List ℚ)) (v : Int),
      (optimizeWithModiBody a c (some v)).max_iterations = v) ∧
    (∀ p : TransportationProblem, p.max_iterations = none →
      effectiveMaxIterations p = 10) ∧
    (∀ p : TransportationProblem,
      p.use_modi = none ∨ p.use_modi = some true ∨ p.use_modi = some false) ∧
    (∀ p : TransportationProblem, (validateT p).valid = true →
      p.supply.length = p.costs.length ∧
      p.demand.length = (p.costs.headD []).length) := by
  refine ⟨?_, fun a c => rfl, fun a c v => rfl, ?_, ?_, ?_⟩
  · intro k
    cases k
    · exact Or.inl rfl
    · exact Or.inr (Or.inl rfl)
    · exact Or.inr (Or.inr (Or.inl rfl))
    · exact Or.inr (Or.inr (Or.inr rfl))
  · intro p h
    simp [effectiveMaxIterations, h]
  · intro p
    rcases hm : p.use_modi with - | b
    · exact Or.inl rfl
    · cases b
      · exact Or.inr (Or.inr rfl)
      · exact Or.inr (Or.inl rfl)
  · intro p h
    simp only [validateT] at h
    split_ifs at h with h1 h2 h3 h4
    push_neg at h3
    exact ⟨h3.1, h3.2⟩

/-- Witness for C7 at a concrete valid request with omitted fields. -/
theorem spec_c7_witness :
    (validateT ⟨[[1, 2], [3, 4]], [10, 20], [15, 15], .nwcr, none, none⟩).valid = true ∧
    (([10, 20] : List ℚ).length = ([[1, 2], [3, 4]] : List (List ℚ)).length ∧
      ([15, 15] : List ℚ).length
        = (([[1, 2], [3, 4]] : List (List ℚ)).headD []).length) ∧
    effectiveMaxIterations ⟨[[1, 2], [3, 4]], [10, 20], [15, 15], .nwcr, none, none⟩
      = 10 :=
  ⟨by decide,
    spec_c7_request_shape.2.2.2.2.2
      ⟨[[1, 2], [3, 4]], [10, 20], [15, 15], .nwcr, none, none⟩ (by decide),
    spec_c7_request_shape.2.2.2.1
      ⟨[[1, 2], [3, 4]], [10, 20], [15, 15], .nwcr, none, none⟩ rfl⟩

/-- C5: every solve is deterministic — with the engine a pure function of the
validated request, two runs on the same input produce identical results
(allocation, trace and cost for transportation; pairs and cost for
assignment). -/
theorem spec_c5_solve_deterministic (p : TransportationProblem)
    (hp : (validateT p).valid = true)
    (r1 r2 : Except String SolutionResponse)
    (h1 : r1 = solveTransportation p) (h2 : r2 = solveTransportation p)
    (costs : List (List ℚ)) (a1 a2 : Except String SolutionResponse)
    (g1 : a1 = solveAssignment costs) (g2 : a2 = solveAssignment costs) :
    r1 = r2 ∧ a1 = a2 :=
  ⟨h1.trans h2.symm, g1.trans g2.symm⟩

/-- Witness for C5 at a concrete validated request. -/
theorem spec_c5_witness :
    (validateT ⟨[[1, 2], [3, 4]], [10, 20], [15, 15], .nwcr, some false, some 10⟩).valid
        = true ∧
    solveTransportation ⟨[[1, 2], [3, 4]], [10, 20], [15, 15], .nwcr, some false, some 10⟩
        = solveTransportation
          ⟨[[1, 2], [3, 4]], [10, 20], [15, 15], .nwcr, some false, some 10⟩ ∧
    solveAssignment [[1]] = solveAssignment [[1]] :=
  ⟨by decide,
    spec_c5_solve_deterministic
      ⟨[[1, 2], [3, 4]], [10, 20], [15, 15], .nwcr, some false, some 10⟩ (by decide)
      _ _ rfl rfl [[1]] _ _ rfl rfl⟩

/-- C6: on a validated request the solve always returns a response (never a
thrown failure), carrying `converged` and `iterations` exactly when MODI ran
(`use_modi` true) together with the allocation; and a MODI run whose
iteration budget is exhausted reports `converged = false` rather than
raising. -/
theorem spec_c6_modi_response_fields (p : TransportationProblem)
    (hp : (validateT p).valid = true) :
    (∃ r, solveTransportation p = .ok r ∧
      (r.converged.isSome = true ↔ p.use_modi = some true) ∧
      (r.iterations.isSome = true ↔ p.use_modi = some true) ∧
      r.allocation.isSome = true) ∧
    (∀ (m n iters : ℕ) (cost alloc : ℕ → ℕ → ℚ) (B : List (ℕ × ℕ))
      (steps : List AllocStep),
      (modiIter m n cost 0 alloc B steps iters).converged = false) := by
  refine ⟨?_, fun m n iters cost alloc B steps => rfl⟩
  simp only [solveTransportation]
  rw [hp]
  simp only [if_true]
  by_cases hm : p.use_modi = some true
  · rw [if_pos hm]
    exact ⟨_, rfl, by simp [hm], by simp [hm], by simp⟩
  · rw [if_neg hm]
    refine ⟨_, rfl, ?_, ?_, by simp⟩
    · simp only [Option.isSome_none]
      constructor
      · intro h
        cases h
      · intro h
        exact absurd h hm
    · simp only [Option.isSome_none]
      constructor
      · intro h
        cases h
      · intro h
        exact absurd h hm

/-- Witness for C6 at a concrete validated request with MODI enabled. -/
theorem spec_c6_witness :
    (validateT ⟨[[1, 2], [3, 4]], [10, 20], [15, 15], .nwcr, some true, some 3⟩).valid
        = true ∧
    ∃ r, solveTransportation
        ⟨[[1, 2], [3, 4]], [10, 20], [15, 15], .nwcr, some true, some 3⟩ = .ok r ∧
      (r.converged.isSome = true ↔
        (⟨[[1, 2], [3, 4]], [10, 20], [15, 15], .nwcr, some true, some 3⟩ :
          TransportationProblem).use_modi = some true) ∧
      (r.iterations.isSome = true ↔
        (⟨[[1, 2], [3, 4]], [10, 20], [15, 15], .nwcr, some true, some 3⟩ :
          TransportationProblem).use_modi = some true) ∧
      r.allocation.isSome = true :=
  ⟨by decide,
    (spec_c6_modi_response_fields
      ⟨[[1, 2], [3, 4]], [10, 20], [15, 15], .nwcr, some true, some 3⟩ (by decide)).1⟩

end TPS

